import Mathlib

/-!
# Verification of the `set` Go package (github.com/hweidner/set)

The package implements a mathematical set as a Go map without values
(`map[T]struct{}`).  We embed the map backing store shallowly as a list of
keys in iteration order: a Go map's key set is duplicate-free, which appears
below as a `Nodup` hypothesis on inputs where a theorem needs it.  Each
method's loop over the map becomes a fold over that key list, translated
statement by statement from `set.go` / the generic `v2` variant (the two are
algorithmically identical for everything proved here).

Methods that only build and return a fresh map are modelled as pure list
functions.  For the frame properties (non-mutation of operands, copy
independence) maps are placed in an explicit heap: a `Heap` maps addresses to
key lists, `alloc` hands out a fresh address, and each Go method becomes a
heap transformer that writes only the address it allocates (or, for `Add`,
the receiver's address).
-/

namespace SetGo

variable {T : Type} [DecidableEq T]

/-- Go `s[k] = value` on a map modelled as its key list: a no-op when the key
is present, otherwise the key is appended to the iteration order. -/
def mapInsert (s : List T) (k : T) : List T :=
  if k ∈ s then s else s ++ [k]

/-- Go `delete(s, k)` on a map modelled as its key list. -/
def mapDelete (s : List T) (k : T) : List T :=
  s.erase k

/-- `NewInit` (v1) / `New` (v2): `s := Set{}; for _, i := range e { s[i] = value }`. -/
def NewInit (e : List T) : List T :=
  e.foldl mapInsert []

/-- `Contains`: `for _, i := range e { if _, ok := s[i]; !ok { return false } }; return true`. -/
def Contains (s : List T) (e : List T) : Bool :=
  e.all fun i => decide (i ∈ s)

/-- `IsEqual`: `if len(s) != len(t) { return false }` then the one-directional
membership loop `for k := range s { if _, ok := t[k]; !ok { return false } }`. -/
def IsEqual (s t : List T) : Bool :=
  decide (s.length = t.length) && s.all fun k => decide (k ∈ t)

/-- `IsSubsetOf`: `for k := range s { if _, ok := t[k]; !ok { return false } }; return true`. -/
def IsSubsetOf (s t : List T) : Bool :=
  s.all fun k => decide (k ∈ t)

/-- `Copy`: `t := Set{}; for k := range s { t[k] = value }; return t`. -/
def Copy (s : List T) : List T :=
  s.foldl mapInsert []

/-- `Union`: `r := Set{}` (v2 pre-sizes it, which only affects capacity), then
`for k := range s { r[k] = value }` and `for _, i := range t { for k := range i { r[k] = value } }`. -/
def Union (s : List T) (t : List (List T)) : List T :=
  t.foldl (fun r i => i.foldl mapInsert r) (s.foldl mapInsert [])

/-- `Intersect`: for each `k := range s`, the inner loop over the operands
`continue`s to the next element of `s` as soon as one operand lacks `k`;
`k` is kept exactly when every operand contains it. -/
def Intersect (s : List T) (t : List (List T)) : List T :=
  s.foldl (fun r k => if ∀ i ∈ t, k ∈ i then mapInsert r k else r) []

/-- `Diff`: `for k := range s { if _, ok := t[k]; !ok { r[k] = value } }`. -/
def Diff (s t : List T) : List T :=
  s.foldl (fun r k => if k ∉ t then mapInsert r k else r) []

/-- `SymDiff`: `r := s.Copy()`, then for each `k := range t`,
`if _, ok := s[k]; !ok { r[k] = value } else { delete(r, k) }`. -/
def SymDiff (s t : List T) : List T :=
  t.foldl (fun r k => if k ∉ s then mapInsert r k else mapDelete r k) (Copy s)

/-- `String`: `str := "{ "; for k := range s { str += fmt.Sprint(k) + " " }; str += "}"`. -/
def StringGo (s : List Nat) : String :=
  (s.foldl (fun str k => str ++ toString k ++ " ") "\x7b ") ++ "\x7d"

/-! ## Basic lemmas about the backing-store model -/

theorem mem_mapInsert (s : List T) (k x : T) :
    x ∈ mapInsert s k ↔ x ∈ s ∨ x = k := by
  unfold mapInsert
  split
  · constructor
    · exact Or.inl
    · rintro (h | rfl)
      · exact h
      · assumption
  · simp

theorem nodup_mapInsert (s : List T) (k : T) (h : s.Nodup) :
    (mapInsert s k).Nodup := by
  unfold mapInsert
  by_cases hk : k ∈ s
  · simpa [hk]
  · rw [if_neg hk]
    simp only [List.nodup_append, List.nodup_cons, List.not_mem_nil, not_false_iff,
      List.nodup_nil, and_true, List.disjoint_singleton]
    exact ⟨h, trivial, hk⟩

theorem mem_mapDelete_of_ne (s : List T) (k x : T) (hxk : x ≠ k) :
    x ∈ mapDelete s k ↔ x ∈ s :=
  List.mem_erase_of_ne hxk

theorem not_mem_mapDelete_self (s : List T) (k : T) (h : s.Nodup) :
    k ∉ mapDelete s k :=
  h.not_mem_erase

theorem nodup_mapDelete (s : List T) (k : T) (h : s.Nodup) :
    (mapDelete s k).Nodup :=
  h.erase k

/-- Membership after a loop that conditionally inserts each key of `s`. -/
theorem mem_foldl_ite (p : T → Prop) [DecidablePred p] (s : List T) (r : List T) (x : T) :
    x ∈ s.foldl (fun r k => if p k then mapInsert r k else r) r ↔
      x ∈ r ∨ (x ∈ s ∧ p x) := by
  induction s generalizing r with
  | nil => simp
  | cons a s ih =>
    rw [List.foldl_cons, ih]
    by_cases hpa : p a <;> by_cases hxa : x = a <;>
      simp [hpa, mem_mapInsert, hxa]

/-- A loop that conditionally inserts keys preserves duplicate-freeness. -/
theorem nodup_foldl_ite (p : T → Prop) [DecidablePred p] (s : List T) (r : List T)
    (h : r.Nodup) :
    (s.foldl (fun r k => if p k then mapInsert r k else r) r).Nodup := by
  induction s generalizing r with
  | nil => simpa
  | cons a s ih =>
    rw [List.foldl_cons]
    split
    · exact ih _ (nodup_mapInsert r a h)
    · exact ih _ h

/-- Membership after a loop that unconditionally inserts each key of `s`. -/
theorem mem_foldl_insert (s : List T) (r : List T) (x : T) :
    x ∈ s.foldl mapInsert r ↔ x ∈ r ∨ x ∈ s := by
  induction s generalizing r with
  | nil => simp
  | cons a s ih =>
    rw [List.foldl_cons, ih, mem_mapInsert]
    by_cases hxa : x = a <;> simp [hxa]

theorem nodup_foldl_insert (s : List T) (r : List T) (h : r.Nodup) :
    (s.foldl mapInsert r).Nodup := by
  induction s generalizing r with
  | nil => simpa
  | cons a s ih =>
    rw [List.foldl_cons]
    exact ih _ (nodup_mapInsert r a h)

theorem mem_Copy (s : List T) (x : T) : x ∈ Copy s ↔ x ∈ s := by
  unfold Copy
  rw [mem_foldl_insert]
  simp

theorem nodup_Copy (s : List T) : (Copy s).Nodup :=
  nodup_foldl_insert s [] List.nodup_nil

theorem mem_Union (s : List T) (ts : List (List T)) (x : T) :
    x ∈ Union s ts ↔ x ∈ s ∨ ∃ i ∈ ts, x ∈ i := by
  unfold Union
  have key : ∀ (ts : List (List T)) (r : List T),
      x ∈ ts.foldl (fun r i => i.foldl mapInsert r) r ↔ x ∈ r ∨ ∃ i ∈ ts, x ∈ i := by
    intro ts
    induction ts with
    | nil => simp
    | cons a ts ih =>
      intro r
      rw [List.foldl_cons, ih, mem_foldl_insert]
      simp only [List.mem_cons]
      constructor
      · rintro ((h | h) | ⟨i, hi, hx⟩)
        · exact Or.inl h
        · exact Or.inr ⟨a, Or.inl rfl, h⟩
        · exact Or.inr ⟨i, Or.inr hi, hx⟩
      · rintro (h | ⟨i, (rfl | hi), hx⟩)
        · exact Or.inl (Or.inl h)
        · exact Or.inl (Or.inr hx)
        · exact Or.inr ⟨i, hi, hx⟩
  rw [key, mem_foldl_insert]
  simp

theorem nodup_Union (s : List T) (ts : List (List T)) : (Union s ts).Nodup := by
  unfold Union
  have key : ∀ (ts : List (List T)) (r : List T), r.Nodup →
      (ts.foldl (fun r i => i.foldl mapInsert r) r).Nodup := by
    intro ts
    induction ts with
    | nil => intro r h; simpa
    | cons a ts ih =>
      intro r h
      rw [List.foldl_cons]
      exact ih _ (nodup_foldl_insert a r h)
  exact key ts _ (nodup_foldl_insert s [] List.nodup_nil)

theorem mem_Intersect (s : List T) (ts : List (List T)) (x : T) :
    x ∈ Intersect s ts ↔ x ∈ s ∧ ∀ i ∈ ts, x ∈ i := by
  unfold Intersect
  rw [mem_foldl_ite]
  simp

theorem nodup_Intersect (s : List T) (ts : List (List T)) : (Intersect s ts).Nodup :=
  nodup_foldl_ite _ s [] List.nodup_nil

theorem mem_Diff (s t : List T) (x : T) :
    x ∈ Diff s t ↔ x ∈ s ∧ x ∉ t := by
  unfold Diff
  rw [mem_foldl_ite]
  simp

theorem nodup_Diff (s t : List T) : (Diff s t).Nodup :=
  nodup_foldl_ite _ s [] List.nodup_nil

/-- Invariant of the `SymDiff` loop over `t`: a key of the (duplicate-free)
operand `t` ends up in the accumulator exactly when it is absent from `s`,
and every other key keeps its membership in the accumulator. -/
theorem mem_symDiff_foldl (s t : List T) (r : List T) (x : T)
    (ht : t.Nodup) (hr : r.Nodup) :
    x ∈ t.foldl (fun r k => if k ∉ s then mapInsert r k else mapDelete r k) r ↔
      (if x ∈ t then x ∉ s else x ∈ r) := by
  induction t generalizing r with
  | nil => simp
  | cons a t ih =>
    rw [List.nodup_cons] at ht
    rw [List.foldl_cons]
    have hstep : ((if a ∉ s then mapInsert r a else mapDelete r a) : List T).Nodup := by
      split
      · exact nodup_mapInsert r a hr
      · exact nodup_mapDelete r a hr
    rw [ih _ ht.2 hstep]
    by_cases hxt : x ∈ t
    · simp [hxt]
    · by_cases hxa : x = a
      · subst hxa
        by_cases hxs : x ∈ s <;>
          simp [hxt, hxs, mem_mapInsert, not_mem_mapDelete_self r x hr]
      · simp only [hxt, if_false, List.mem_cons, hxa, false_or]
        split
        · rw [mem_mapInsert]
          simp [hxa]
        · exact mem_mapDelete_of_ne r a x hxa

theorem nodup_SymDiff (s t : List T) : (SymDiff s t).Nodup := by
  unfold SymDiff
  have key : ∀ (t : List T) (r : List T), r.Nodup →
      (t.foldl (fun r k => if k ∉ s then mapInsert r k else mapDelete r k) r).Nodup := by
    intro t
    induction t with
    | nil => intro r h; simpa
    | cons a t ih =>
      intro r h
      rw [List.foldl_cons]
      refine ih _ ?_
      split
      · exact nodup_mapInsert r a h
      · exact nodup_mapDelete r a h
  exact key t _ (nodup_Copy s)

theorem mem_SymDiff (s t : List T) (x : T) (ht : t.Nodup) :
    x ∈ SymDiff s t ↔ (x ∈ s ↔ x ∉ t) := by
  unfold SymDiff
  rw [mem_symDiff_foldl s t (Copy s) x ht (nodup_Copy s), mem_Copy]
  by_cases hxt : x ∈ t <;> simp [hxt]

/-- The implemented `IsEqual` (size check plus one-directional subset loop)
decides identical membership, given the map invariant that key lists are
duplicate-free. -/
theorem isEqual_eq_true_iff (s t : List T) (hs : s.Nodup) (ht : t.Nodup) :
    IsEqual s t = true ↔ ∀ x, x ∈ s ↔ x ∈ t := by
  unfold IsEqual
  rw [Bool.and_eq_true, decide_eq_true_iff, List.all_eq_true]
  simp only [decide_eq_true_iff]
  constructor
  · rintro ⟨hlen, hsub⟩ x
    have hsubF : s.toFinset ⊆ t.toFinset := by
      intro y hy
      rw [List.mem_toFinset] at hy ⊢
      exact hsub y hy
    have hcard : t.toFinset.card ≤ s.toFinset.card := by
      rw [List.toFinset_card_of_nodup hs, List.toFinset_card_of_nodup ht, hlen]
    have : s.toFinset = t.toFinset := Finset.eq_of_subset_of_card_le hsubF hcard
    constructor
    · intro hx
      exact hsub x hx
    · intro hx
      have : x ∈ s.toFinset := by
        rw [this, List.mem_toFinset]
        exact hx
      rwa [List.mem_toFinset] at this
  · intro h
    have hF : s.toFinset = t.toFinset := by
      ext y
      rw [List.mem_toFinset, List.mem_toFinset]
      exact h y
    constructor
    · rw [← List.toFinset_card_of_nodup hs, ← List.toFinset_card_of_nodup ht, hF]
    · intro x hx
      exact (h x).1 hx

/-! ## Heap model for frame properties

Go sets are reference values: a `Set` variable is a handle to a map.  We
make the store explicit: a `Heap` maps addresses to key lists, `alloc`
models `Set{}` / `make(map[T]struct{}, ...)` by handing out the next fresh
address with empty contents, and `write` models updating the map behind an
address.  Methods that return a new set allocate a fresh address, run their
loops (the list functions above) over the operands' contents, and write the
result only through the fresh address; `Add` writes through the receiver's
address.  Valid (previously allocated) addresses are those below `next`. -/

structure Heap (T : Type) where
  store : Nat → List T
  next : Nat

def Heap.write (h : Heap T) (a : Nat) (l : List T) : Heap T :=
  ⟨fun b => if b = a then l else h.store b, h.next⟩

def Heap.alloc (h : Heap T) : Heap T × Nat :=
  (⟨fun b => if b = h.next then [] else h.store b, h.next + 1⟩, h.next)

/-- `Add`: `for _, i := range e { s[i] = value }` — writes through the
receiver's own address. -/
def goAdd (h : Heap T) (s : Nat) (e : List T) : Heap T :=
  h.write s (e.foldl mapInsert (h.store s))

/-- `Copy`: allocates a fresh map and inserts every key of the receiver. -/
def goCopy (h : Heap T) (s : Nat) : Heap T × Nat :=
  let p := h.alloc
  (p.1.write p.2 (Copy (p.1.store s)), p.2)

/-- `Union`: allocates a fresh map, then runs the union loops over the
receiver and the operand handles. -/
def goUnion (h : Heap T) (s : Nat) (t : List Nat) : Heap T × Nat :=
  let p := h.alloc
  (p.1.write p.2 (Union (p.1.store s) (t.map p.1.store)), p.2)

/-- `Intersect` in the heap model. -/
def goIntersect (h : Heap T) (s : Nat) (t : List Nat) : Heap T × Nat :=
  let p := h.alloc
  (p.1.write p.2 (Intersect (p.1.store s) (t.map p.1.store)), p.2)

/-- `Diff` in the heap model. -/
def goDiff (h : Heap T) (s : Nat) (t : Nat) : Heap T × Nat :=
  let p := h.alloc
  (p.1.write p.2 (Diff (p.1.store s) (p.1.store t)), p.2)

/-- `SymDiff` in the heap model. -/
def goSymDiff (h : Heap T) (s : Nat) (t : Nat) : Heap T × Nat :=
  let p := h.alloc
  (p.1.write p.2 (SymDiff (p.1.store s) (p.1.store t)), p.2)

omit [DecidableEq T] in
theorem store_alloc_of_valid (h : Heap T) (a : Nat) (ha : a < h.next) :
    (h.alloc.1).store a = h.store a := by
  simp [Heap.alloc, Nat.ne_of_lt ha]

omit [DecidableEq T] in
theorem store_write_of_ne (h : Heap T) (a b : Nat) (l : List T) (hab : a ≠ b) :
    (h.write b l).store a = h.store a := by
  simp [Heap.write, hab]

omit [DecidableEq T] in
theorem store_write_self (h : Heap T) (a : Nat) (l : List T) :
    (h.write a l).store a = l := by
  simp [Heap.write]

omit [DecidableEq T] in
/-- A fresh-allocating heap operation leaves every valid address untouched. -/
theorem store_alloc_write_of_valid (h : Heap T) (a : Nat) (l : List T)
    (ha : a < h.next) :
    ((h.alloc.1).write h.alloc.2 l).store a = h.store a := by
  have h2 : h.alloc.2 = h.next := rfl
  rw [h2, store_write_of_ne _ _ _ _ (Nat.ne_of_lt ha), store_alloc_of_valid h a ha]

/-! ## String rendering -/

/-- The spec's description of the element payload of `String()`: each
element's textual form, each followed by a single space, concatenated in
iteration order. -/
def specRenderElems (s : List Nat) : String :=
  s.foldr (fun k acc => toString k ++ " " ++ acc) ""

theorem foldl_render (s : List Nat) (init : String) :
    s.foldl (fun str k => str ++ toString k ++ " ") init = init ++ specRenderElems s := by
  induction s generalizing init with
  | nil => simp [specRenderElems, String.append_empty]
  | cons a s ih =>
    rw [List.foldl_cons, ih]
    simp only [specRenderElems, List.foldr_cons]
    simp [String.append_assoc]

/-! ## The claims -/

/-- C2: `Intersect` called with zero operand sets returns a new set equal in
membership to a copy of the receiver: the result is pointwise the same as
`Copy s`, so every element of `s` is in the result and the result has no
other elements. -/
theorem intersect_zero_operands_copies_receiver (s : List T) (x : T) :
    (x ∈ Intersect s [] ↔ x ∈ Copy s) ∧ (x ∈ Intersect s [] ↔ x ∈ s) := by
  rw [mem_Intersect, mem_Copy]
  simp

/-- C3: `IsEqual` returns true iff the two sets have identical element
membership, i.e. the implemented shortcut (length equality plus the
one-directional subset loop) is equivalent to containment in both
directions.  The `Nodup` hypotheses are the Go map invariant that a map's
key list is duplicate-free. -/
theorem isEqual_iff_same_membership (s t : List T) (hs : s.Nodup) (ht : t.Nodup) :
    (IsEqual s t = true ↔ ∀ x, x ∈ s ↔ x ∈ t) ∧
      (IsEqual s t = true ↔ ((∀ x ∈ s, x ∈ t) ∧ (∀ x ∈ t, x ∈ s))) := by
  have h := isEqual_eq_true_iff s t hs ht
  refine ⟨h, h.trans ?_⟩
  constructor
  · intro hx
    exact ⟨fun x hxs => (hx x).1 hxs, fun x hxt => (hx x).2 hxt⟩
  · intro hx x
    exact ⟨fun hxs => hx.1 x hxs, fun hxt => hx.2 x hxt⟩

theorem isEqual_iff_same_membership_witness :
    ([1, 2] : List Nat).Nodup ∧ ([2, 1] : List Nat).Nodup ∧
      ((IsEqual ([1, 2] : List Nat) [2, 1] = true ↔
          ∀ x, x ∈ ([1, 2] : List Nat) ↔ x ∈ ([2, 1] : List Nat)) ∧
        (IsEqual ([1, 2] : List Nat) [2, 1] = true ↔
          ((∀ x ∈ ([1, 2] : List Nat), x ∈ ([2, 1] : List Nat)) ∧
            (∀ x ∈ ([2, 1] : List Nat), x ∈ ([1, 2] : List Nat))))) :=
  ⟨by decide, by decide, isEqual_iff_same_membership [1, 2] [2, 1] (by decide) (by decide)⟩

/-- C4: `A.SymDiff(B)` is `IsEqual` to `A.Union(B).Diff(A.Intersect(B))`:
the symmetric difference holds exactly the elements in exactly one of the
two sets.  The `Nodup` hypotheses are the Go map key-list invariant. -/
theorem symDiff_isEqual_union_diff_intersect (s t : List T)
    (_hs : s.Nodup) (ht : t.Nodup) :
    IsEqual (SymDiff s t) (Diff (Union s [t]) (Intersect s [t])) = true := by
  rw [isEqual_eq_true_iff _ _ (nodup_SymDiff s t) (nodup_Diff _ _)]
  intro x
  rw [mem_SymDiff s t x ht, mem_Diff, mem_Union, mem_Intersect]
  simp only [List.mem_singleton, exists_eq_left, List.forall_mem_singleton, forall_eq]
  tauto

theorem symDiff_isEqual_union_diff_intersect_witness :
    ([1, 2] : List Nat).Nodup ∧ ([2, 3] : List Nat).Nodup ∧
      IsEqual (SymDiff ([1, 2] : List Nat) [2, 3])
        (Diff (Union ([1, 2] : List Nat) [[2, 3]])
          (Intersect ([1, 2] : List Nat) [[2, 3]])) = true :=
  ⟨by decide, by decide,
    symDiff_isEqual_union_diff_intersect [1, 2] [2, 3] (by decide) (by decide)⟩

/-- C5: two-set inclusion-exclusion:
`A.Union(B).Len() + A.Intersect(B).Len() = A.Len() + B.Len()`.
The `Nodup` hypotheses are the Go map key-list invariant. -/
theorem union_len_add_intersect_len (s t : List T) (hs : s.Nodup) (ht : t.Nodup) :
    (Union s [t]).length + (Intersect s [t]).length = s.length + t.length := by
  have hU : (Union s [t]).toFinset = s.toFinset ∪ t.toFinset := by
    ext x
    simp [mem_Union]
  have hI : (Intersect s [t]).toFinset = s.toFinset ∩ t.toFinset := by
    ext x
    simp [mem_Intersect]
  rw [← List.toFinset_card_of_nodup (nodup_Union s [t]),
    ← List.toFinset_card_of_nodup (nodup_Intersect s [t]),
    ← List.toFinset_card_of_nodup hs, ← List.toFinset_card_of_nodup ht, hU, hI]
  exact Finset.card_union_add_card_inter _ _

theorem union_len_add_intersect_len_witness :
    ([1, 2] : List Nat).Nodup ∧ ([2, 3] : List Nat).Nodup ∧
      (Union ([1, 2] : List Nat) [[2, 3]]).length +
        (Intersect ([1, 2] : List Nat) [[2, 3]]).length =
        ([1, 2] : List Nat).length + ([2, 3] : List Nat).length :=
  ⟨by decide, by decide, union_len_add_intersect_len [1, 2] [2, 3] (by decide) (by decide)⟩

/-- C6: `Union`, `Intersect`, `Diff`, `SymDiff` and `Copy` do not mutate
their operands: after each call, the backing store behind both operand
addresses is unchanged (hence so are their lengths and memberships).  The
hypotheses say the operand addresses were previously allocated. -/
theorem operations_leave_operands_unchanged (h : Heap T) (a b : Nat)
    (ha : a < h.next) (hb : b < h.next) :
    ((goUnion h a [b]).1.store a = h.store a ∧ (goUnion h a [b]).1.store b = h.store b) ∧
      ((goIntersect h a [b]).1.store a = h.store a ∧
        (goIntersect h a [b]).1.store b = h.store b) ∧
      ((goDiff h a b).1.store a = h.store a ∧ (goDiff h a b).1.store b = h.store b) ∧
      ((goSymDiff h a b).1.store a = h.store a ∧ (goSymDiff h a b).1.store b = h.store b) ∧
      ((goCopy h a).1.store a = h.store a ∧ (goCopy h a).1.store b = h.store b) := by
  refine ⟨⟨?_, ?_⟩, ⟨?_, ?_⟩, ⟨?_, ?_⟩, ⟨?_, ?_⟩, ⟨?_, ?_⟩⟩ <;>
    first
      | exact store_alloc_write_of_valid h a _ ha
      | exact store_alloc_write_of_valid h b _ hb

theorem operations_leave_operands_unchanged_witness :
    (0 : Nat) < 2 ∧ (1 : Nat) < 2 ∧
      (((goUnion (⟨fun _ => ([5] : List Nat), 2⟩ : Heap Nat) 0 [1]).1.store 0 =
            (⟨fun _ => ([5] : List Nat), 2⟩ : Heap Nat).store 0 ∧
          (goUnion (⟨fun _ => ([5] : List Nat), 2⟩ : Heap Nat) 0 [1]).1.store 1 =
            (⟨fun _ => ([5] : List Nat), 2⟩ : Heap Nat).store 1) ∧
        ((goIntersect (⟨fun _ => ([5] : List Nat), 2⟩ : Heap Nat) 0 [1]).1.store 0 =
            (⟨fun _ => ([5] : List Nat), 2⟩ : Heap Nat).store 0 ∧
          (goIntersect (⟨fun _ => ([5] : List Nat), 2⟩ : Heap Nat) 0 [1]).1.store 1 =
            (⟨fun _ => ([5] : List Nat), 2⟩ : Heap Nat).store 1) ∧
        ((goDiff (⟨fun _ => ([5] : List Nat), 2⟩ : Heap Nat) 0 1).1.store 0 =
            (⟨fun _ => ([5] : List Nat), 2⟩ : Heap Nat).store 0 ∧
          (goDiff (⟨fun _ => ([5] : List Nat), 2⟩ : Heap Nat) 0 1).1.store 1 =
            (⟨fun _ => ([5] : List Nat), 2⟩ : Heap Nat).store 1) ∧
        ((goSymDiff (⟨fun _ => ([5] : List Nat), 2⟩ : Heap Nat) 0 1).1.store 0 =
            (⟨fun _ => ([5] : List Nat), 2⟩ : Heap Nat).store 0 ∧
          (goSymDiff (⟨fun _ => ([5] : List Nat), 2⟩ : Heap Nat) 0 1).1.store 1 =
            (⟨fun _ => ([5] : List Nat), 2⟩ : Heap Nat).store 1) ∧
        ((goCopy (⟨fun _ => ([5] : List Nat), 2⟩ : Heap Nat) 0).1.store 0 =
            (⟨fun _ => ([5] : List Nat), 2⟩ : Heap Nat).store 0 ∧
          (goCopy (⟨fun _ => ([5] : List Nat), 2⟩ : Heap Nat) 0).1.store 1 =
            (⟨fun _ => ([5] : List Nat), 2⟩ : Heap Nat).store 1)) :=
  ⟨by decide, by decide,
    operations_leave_operands_unchanged (⟨fun _ => ([5] : List Nat), 2⟩ : Heap Nat) 0 1
      (by decide) (by decide)⟩

/-- C7: `Copy` is independent of the original: the copy has the same
elements; adding an element `x ∉ A` to the copy does not make `A` contain
`x`; and mutating `A` via `Add` leaves the copy's backing store unchanged.
The hypothesis says the receiver's address was previously allocated. -/
theorem copy_independent (h : Heap T) (a : Nat) (ha : a < h.next) (x : T) :
    (∀ y, y ∈ (goCopy h a).1.store (goCopy h a).2 ↔ y ∈ h.store a) ∧
      (x ∉ h.store a → x ∉ (goAdd (goCopy h a).1 (goCopy h a).2 [x]).store a) ∧
      (∀ e, (goAdd (goCopy h a).1 a e).store (goCopy h a).2 =
        (goCopy h a).1.store (goCopy h a).2) := by
  have hane : a ≠ h.next := Nat.ne_of_lt ha
  refine ⟨?_, ?_, ?_⟩
  · intro y
    show y ∈ ((h.alloc.1).write h.alloc.2 (Copy (h.alloc.1.store a))).store h.alloc.2 ↔ _
    rw [store_write_self, store_alloc_of_valid h a ha, mem_Copy]
  · intro hx
    have h2 : (goCopy h a).2 = h.next := rfl
    unfold goAdd
    rw [h2, store_write_of_ne _ _ _ _ hane]
    show x ∉ ((h.alloc.1).write h.alloc.2 _).store a
    rw [store_alloc_write_of_valid h a _ ha]
    exact hx
  · intro e
    have h2 : (goCopy h a).2 = h.next := rfl
    unfold goAdd
    rw [h2, store_write_of_ne _ _ _ _ (Ne.symm hane)]

theorem copy_independent_witness :
    (0 : Nat) < 1 ∧
      ((∀ y, y ∈ (goCopy (⟨fun _ => ([7] : List Nat), 1⟩ : Heap Nat) 0).1.store
            (goCopy (⟨fun _ => ([7] : List Nat), 1⟩ : Heap Nat) 0).2 ↔
          y ∈ (⟨fun _ => ([7] : List Nat), 1⟩ : Heap Nat).store 0) ∧
        ((5 : Nat) ∉ (⟨fun _ => ([7] : List Nat), 1⟩ : Heap Nat).store 0 →
          (5 : Nat) ∉ (goAdd (goCopy (⟨fun _ => ([7] : List Nat), 1⟩ : Heap Nat) 0).1
            (goCopy (⟨fun _ => ([7] : List Nat), 1⟩ : Heap Nat) 0).2 [5]).store 0) ∧
        (∀ e, (goAdd (goCopy (⟨fun _ => ([7] : List Nat), 1⟩ : Heap Nat) 0).1 0 e).store
            (goCopy (⟨fun _ => ([7] : List Nat), 1⟩ : Heap Nat) 0).2 =
          (goCopy (⟨fun _ => ([7] : List Nat), 1⟩ : Heap Nat) 0).1.store
            (goCopy (⟨fun _ => ([7] : List Nat), 1⟩ : Heap Nat) 0).2)) :=
  ⟨by decide, copy_independent (⟨fun _ => ([7] : List Nat), 1⟩ : Heap Nat) 0 (by decide) 5⟩

/-- C8: `Contains` is conjunctive: it returns true iff every given element
is in the set, and it returns true on an empty argument list. -/
theorem contains_conjunctive (s es : List T) :
    (Contains s es = true ↔ ∀ x ∈ es, x ∈ s) ∧ Contains s [] = true := by
  unfold Contains
  simp

/-- C9: `String` renders `"{ "`, then each element's textual form followed
by a single space, in backing-store iteration order, then `"}"`; the empty
set renders as `"{ }"`. -/
theorem string_renders_elements (s : List Nat) :
    StringGo s = "\x7b " ++ specRenderElems s ++ "\x7d" ∧
      StringGo ([] : List Nat) = "\x7b \x7d" := by
  constructor
  · unfold StringGo
    rw [foldl_render]
  · rfl

/-- C10: `Union` with zero operand sets is literally the `Copy` loop on the
receiver, hence returns a fresh set with exactly the receiver's
membership. -/
theorem union_zero_operands_copies_receiver (s : List T) :
    Union s [] = Copy s ∧ ∀ x, x ∈ Union s [] ↔ x ∈ s := by
  constructor
  · rfl
  · intro x
    rw [mem_Union]
    simp

end SetGo
